import Mathlib

/-!
Verification development for the retrieval/reranking engine of the
CompTIA Security+ RAG repository.  The Python sources embedded here are
`vector_db_manager.py`, `llm_reranker.py` and `rag_retriever.py`.

Modelling conventions:
* float scores are modelled as rationals (the code only ever writes the
  exact decimal literals `1.0`, `0.05`, so `ℚ` carries them exactly);
* the Gemini / OpenAI / Qdrant network calls are modelled as explicit
  parameters (an outcome value, a similarity function, a stored point
  list);
* Python mutation of shared `SearchResult` objects is modelled by
  threading the candidate list as an explicit store and addressing the
  aliases held in `reranked` by index.
-/

namespace CompTIA

/-- Metadata dictionary of a stored chunk; only the fields the engine's
filters and claims touch are carried. -/
structure Metadata where
  chapter_num : String
  section_num : String
  content_type : String
deriving DecidableEq, Repr

/-- The `SearchResult` dataclass of `vector_db_manager.py` (lines 23-31).
Python `@dataclass` equality compares all fields, which `DecidableEq`
mirrors. -/
structure SearchResult where
  chunk_id : String
  content : String
  summary : String
  section_header : String
  score : ℚ
  metadata : Metadata
deriving DecidableEq, Repr

/-- Default used only to make list indexing total; every reachable index
in the development is in range. -/
def dfltRes : SearchResult := ⟨"", "", "", "", 0, ⟨"", "", ""⟩⟩

/-! ## vector_db_manager.py -/

/-- The two client states `VectorDBManager.__init__` can end in: connected
to the real Qdrant server, or the in-memory `QdrantClient(":memory:")`. -/
inductive QClient where
  | server
  | memory
deriving DecidableEq, Repr

/-- Connection logic of `VectorDBManager.__init__` (lines 58-72).  With
`use_memory` the in-memory client is used directly; otherwise the code
tries the server and, on any connection exception, prints a warning and
falls back to the in-memory client.  No branch raises, which is why the
result is always `Except.ok`. -/
def vdbInit (use_memory : Bool) (server_reachable : Bool) : Except String QClient :=
  if use_memory then .ok .memory
  else if server_reachable then .ok .server
  else .ok .memory

/-- The two payload fields `VectorDBManager.search` can filter on. -/
inductive FilterField where
  | chapterNum
  | contentType
deriving DecidableEq, Repr

/-- One `FieldCondition(key=..., match=MatchValue(value=...))`. -/
structure FieldCondition where
  key : FilterField
  value : String
deriving DecidableEq, Repr

/-- Python truthiness of an `Optional[str]` parameter: `None` and the
empty string are falsy. -/
def truthy : Option String → Bool
  | none => false
  | some s => !(decide (s = ""))

/-- Filter construction in `VectorDBManager.search` (lines 213-234): a
condition is appended only when the corresponding argument is truthy,
chapter first, then content type.  The empty condition list stands for
the `search_filter = None` case. -/
def buildSearchFilter (chapter_filter content_type_filter : Option String) :
    List FieldCondition :=
  (if truthy chapter_filter then [⟨.chapterNum, chapter_filter.getD ""⟩] else []) ++
    (if truthy content_type_filter then [⟨.contentType, content_type_filter.getD ""⟩] else [])

/-- Evaluation of one equality condition against a point's metadata. -/
def matchesCondition (m : Metadata) : FieldCondition → Bool
  | ⟨.chapterNum, v⟩ => decide (m.chapter_num = v)
  | ⟨.contentType, v⟩ => decide (m.content_type = v)

/-- A `Filter(must=conds)` holds when every condition holds. -/
def matchesFilter (conds : List FieldCondition) (m : Metadata) : Bool :=
  conds.all (matchesCondition m)

/-- Payload of one stored point, as uploaded in `upload_embeddings`
(lines 166-173); the vector itself is abstracted by the similarity
function below. -/
structure Payload where
  chunk_id : String
  content : String
  summary : String
  section_header : String
  metadata : Metadata
deriving DecidableEq, Repr

/-- Descending-score order on scored points, used to state the Qdrant
ordering contract. -/
def scoredGe (a b : Payload × ℚ) : Prop := b.2 ≤ a.2

instance : DecidableRel scoredGe := fun a b => inferInstanceAs (Decidable (b.2 ≤ a.2))

instance : IsTotal (Payload × ℚ) scoredGe := ⟨fun a b => le_total b.2 a.2⟩

instance : IsTrans (Payload × ℚ) scoredGe := ⟨fun _ _ _ h1 h2 => le_trans h2 h1⟩

/-- Contract of the external `client.search` call (Qdrant, spec section 4.2):
among the stored points whose metadata satisfies the filter, return the
`top_k` with highest similarity to the query vector, in descending score
order.  `sim` abstracts cosine similarity against the fixed query
vector. -/
def qdrantSearch (points : List Payload) (sim : Payload → ℚ)
    (conds : List FieldCondition) (top_k : ℕ) : List (Payload × ℚ) :=
  (((points.filter fun p => matchesFilter conds p.metadata).map fun p =>
    (p, sim p)).insertionSort scoredGe).take top_k

/-- Conversion of one scored point into a `SearchResult`
(`VectorDBManager.search`, lines 244-255). -/
def toSearchResult (pr : Payload × ℚ) : SearchResult :=
  ⟨pr.1.chunk_id, pr.1.content, pr.1.summary, pr.1.section_header, pr.2, pr.1.metadata⟩

/-- `VectorDBManager.search` (lines 194-257): build the filter from the
two optional arguments, query the backend, convert the hits. -/
def vdbSearch (points : List Payload) (sim : Payload → ℚ) (top_k : ℕ)
    (chapter_filter content_type_filter : Option String) : List SearchResult :=
  (qdrantSearch points sim (buildSearchFilter chapter_filter content_type_filter)
    top_k).map toSearchResult

/-! ## llm_reranker.py -/

/-- Python `str.split(sep)` restricted to a one-character separator:
splits at every occurrence without merging (`"".split(',') == [""]`). -/
def splitOnChar (c : Char) : List Char → List (List Char)
  | [] => [[]]
  | a :: rest =>
    match splitOnChar c rest with
    | [] => [[a]]
    | g :: gs => if a = c then [] :: g :: gs else (a :: g) :: gs

/-- Python `str.strip()`: remove leading and trailing whitespace. -/
def pyStrip (cs : List Char) : List Char :=
  ((cs.dropWhile Char.isWhitespace).reverse.dropWhile Char.isWhitespace).reverse

/-- Value of a digit string. -/
def digitsVal (cs : List Char) : ℕ :=
  cs.foldl (fun acc c => 10 * acc + (c.toNat - 48)) 0

/-- Python `int(token)` on an already stripped token: optional sign, then
a nonempty digit string (exotic forms such as underscore grouping are not
modelled; no claim depends on them). -/
def pyInt : List Char → Option ℤ
  | [] => none
  | '-' :: ds =>
    if ds ≠ [] ∧ ds.all Char.isDigit then some (-(digitsVal ds : ℤ)) else none
  | '+' :: ds =>
    if ds ≠ [] ∧ ds.all Char.isDigit then some (digitsVal ds : ℤ) else none
  | ds => if ds.all Char.isDigit then some (digitsVal ds : ℤ) else none

/-- Index-parsing loop of `LLMReranker.rerank` (lines 111-121): strip the
response text, split on commas, `int()` each stripped token, keep the
values lying in `[0, n)`, in response order, duplicates included. -/
def parseIndices (text : String) (n : ℕ) : List ℕ :=
  (splitOnChar ',' (pyStrip text.data)).filterMap fun tok =>
    match pyInt (pyStrip tok) with
    | some i => if 0 ≤ i ∧ i < (n : ℤ) then some i.toNat else none
    | none => none

/-- Mutation loop of `rerank` (lines 128-134): for each selected index in
order, overwrite that candidate's `score` in place with
`1.0 - len(reranked) * 0.05` and append the alias to `reranked`.  `pos`
is `len(reranked)` at the current step; the returned list is the
post-loop state of the candidates list, and the loop's `reranked` equals
the processed index list itself. -/
def buildStore (store : List SearchResult) (pos : ℕ) : List ℕ → List SearchResult
  | [] => store
  | idx :: rest =>
    buildStore
      (store.set idx { store.getD idx dfltRes with score := 1 - (pos : ℚ) * (1 / 20) })
      (pos + 1) rest

/-- Python `result in reranked` for `result = results[j]`: membership is
decided by dataclass value equality against the current values of the
aliases held in `reranked` (represented by their indices into the
store). -/
def memVal (store : List SearchResult) (rr : List ℕ) (j : ℕ) : Bool :=
  rr.any fun i => decide (store.getD i dfltRes = store.getD j dfltRes)

/-- Pairwise distinctness of `chunk_id` across the slots of a store;
this is the data-model invariant (`chunk_id` is globally unique) under
which the padding loop behaves as specified. -/
def StoreChunkDistinct (store : List SearchResult) : Prop :=
  ∀ i j : ℕ, i < store.length → j < store.length → i ≠ j →
    (store.getD i dfltRes).chunk_id ≠ (store.getD j dfltRes).chunk_id

/-- One full pass of the padding `for` loop (lines 138-142): scan the
candidates in order, append every one whose current value is not already
in `reranked`, stopping as soon as `len(reranked)` reaches `k`. -/
def padGo (store : List SearchResult) (k : ℕ) (rr : List ℕ) : List ℕ → List ℕ
  | [] => rr
  | j :: js =>
    if memVal store rr j then padGo store k rr js
    else if k ≤ rr.length + 1 then rr ++ [j]
    else padGo store k (rr ++ [j]) js

/-- Outcome of the Gemini call inside `rerank`: the call (or reading
`response.text`) raises, or it yields a response string.  Both failure
points precede any mutation of the candidates. -/
inductive ModelOutcome where
  | failure
  | response (text : String)

/-- `LLMReranker.rerank` (lines 38-149).  The result is
`some (candidates', output)` where `candidates'` is the post-call state
of the caller's candidate list (the code mutates selected entries in
place) and `output` is the returned list, whose entries alias
`candidates'` slots; scores of aliases are therefore read from the final
store.  `none` models non-termination: the `while` loop re-runs the
padding pass only when the first pass ended below `k` without exhausting
its scan, and since padding never changes any stored value, a second
pass appends exactly what the first one would — nothing — so the Python
loops forever in that case. -/
def rerank (o : ModelOutcome) (results : List SearchResult) (k : ℕ) :
    Option (List SearchResult × List SearchResult) :=
  if results.length ≤ k then some (results, results.take k)
  else
    match o with
    | .failure => some (results, results.take k)
    | .response text =>
      let parsed := parseIndices text results.length
      if parsed = [] then some (results, results.take k)
      else
        let store := buildStore results 0 (parsed.take k)
        let rr := parsed.take k
        if k ≤ rr.length ∨ results.length ≤ rr.length then
          some (store, (rr.take k).map fun i => store.getD i dfltRes)
        else
          let rr2 := padGo store k rr (List.range results.length)
          if k ≤ rr2.length ∨ results.length ≤ rr2.length then
            some (store, (rr2.take k).map fun i => store.getD i dfltRes)
          else none

/-! ## rag_retriever.py -/

/-- Descending-score order on results, used for the final sort of
`retrieve_for_exam_question`. -/
def resGe (a b : SearchResult) : Prop := b.score ≤ a.score

instance : DecidableRel resGe := fun a b => inferInstanceAs (Decidable (b.score ≤ a.score))

instance : IsTotal SearchResult resGe := ⟨fun a b => le_total b.score a.score⟩

instance : IsTrans SearchResult resGe := ⟨fun _ _ _ h1 h2 => le_trans h2 h1⟩

/-- Context-assembly loop (`rag_retriever.py` lines 132-141, identical at
lines 241-250): per result, in order, append the five pieces the code
concatenates. -/
def assembleContext (results : List SearchResult) : String :=
  results.foldl
    (fun context r =>
      context ++ "\n<document>\n" ++ (r.section_header ++ "\n\n") ++
        ("Text:\n" ++ r.content ++ "\n\n") ++
        ("Summary:\n" ++ r.summary ++ "\n") ++ "</document>\n")
    ""

/-- The exact per-result block the spec's section 6 prescribes. -/
def contextBlock (r : SearchResult) : String :=
  "\n<document>\n" ++ r.section_header ++ "\n\nText:\n" ++ r.content ++
    "\n\nSummary:\n" ++ r.summary ++ "\n</document>\n"

/-- Python dict assignment `results_by_id[result.chunk_id] = result`
(main-query loop, line 217): replace in place — keeping the insertion
position — when the key exists, else append. -/
def dictInsertReplace (d : List SearchResult) (r : SearchResult) : List SearchResult :=
  if d.any fun x => decide (x.chunk_id = r.chunk_id) then
    d.map fun x => if x.chunk_id = r.chunk_id then r else x
  else d ++ [r]

/-- Guarded insertion of the option-query loops (lines 228-230): insert
only when the `chunk_id` key is absent. -/
def dictInsertIfAbsent (d : List SearchResult) (r : SearchResult) : List SearchResult :=
  if d.any fun x => decide (x.chunk_id = r.chunk_id) then d else d ++ [r]

/-- First-occurrence-wins deduplication keyed by `chunk_id`, stated
independently of the dict implementation (the invariant of spec
section 4.4 step 3). -/
def dedupFirst (l : List SearchResult) : List SearchResult :=
  l.foldl dictInsertIfAbsent []

/-- Merge, dedupe, sort and cap of `retrieve_for_exam_question`
(lines 206-239): main results inserted with plain dict assignment, option
results guarded by a key-absence test, then a stable descending sort by
score and the `[:min(12, len)]` cap. -/
def examMerge (mainResults : List SearchResult)
    (optionResults : List (List SearchResult)) : List SearchResult :=
  let d0 := mainResults.foldl dictInsertReplace []
  let d := optionResults.foldl (fun acc lst => lst.foldl dictInsertIfAbsent acc) d0
  let sorted := d.insertionSort resGe
  sorted.take (min 12 sorted.length)

/-- `RAGRetriever.retrieve_for_exam_question` (lines 178-250),
parameterized by the per-query retrieval `searchFn query k` (the
embedding call composed with `vdbSearch` on the live collection; the
chapter filter is fixed inside `searchFn`). -/
def retrieveForExamQuestion (searchFn : String → ℕ → List SearchResult)
    (scenario question : String) (options : List String) (k : ℕ) :
    List SearchResult × String :=
  let mainResults := searchFn (scenario ++ " " ++ question) k
  let optionResults := options.map fun opt => searchFn (question ++ " " ++ opt) (max 3 (k / 2))
  let finalResults := examMerge mainResults optionResults
  (finalResults, assembleContext finalResults)

/-! ## Parsing the assembled context back (for the round-trip claim) -/

/-- Delimiter between a block's header and its text. -/
def sepText : List Char := ("\n\nText:\n").data

/-- Delimiter between a block's text and its summary. -/
def sepSummary : List Char := ("\n\nSummary:\n").data

/-- Opening line of a block. -/
def docOpen : List Char := ("\n<document>\n").data

/-- Closing line of a block. -/
def docClose : List Char := ("\n</document>\n").data

/-- Split `l` at the first occurrence of `sep`: `some (pre, post)` with
`l = pre ++ sep ++ post` and no occurrence of `sep` starting inside
`pre`. -/
def splitFirst (sep : List Char) (l : List Char) : Option (List Char × List Char) :=
  if sep.isPrefixOf l then some ([], l.drop sep.length)
  else
    match l with
    | [] => none
    | a :: l' => (splitFirst sep l').map fun pr => (a :: pr.1, pr.2)

/-- Parse the inside of one `<document>` block into its
`(section_header, content, summary)` triple. -/
def parseBlock (inner : List Char) : Option (String × String × String) :=
  match splitFirst sepText inner with
  | none => none
  | some (h, rest) =>
    match splitFirst sepSummary rest with
    | none => none
    | some (c, s) => some (⟨h⟩, ⟨c⟩, ⟨s⟩)

/-- Parse a sequence of blocks; `fuel` bounds the recursion depth (one
unit per block suffices). -/
def parseBlocksFuel : ℕ → List Char → Option (List (String × String × String))
  | fuel, l =>
    if l = [] then some []
    else
      match fuel with
      | 0 => none
      | fuel + 1 =>
        if docOpen.isPrefixOf l then
          match splitFirst docClose (l.drop docOpen.length) with
          | none => none
          | some (inner, rest) =>
            match parseBlock inner, parseBlocksFuel fuel rest with
            | some t, some ts => some (t :: ts)
            | _, _ => none
        else none

/-- Parser for the fixed delimiter format of section 6 of the spec. -/
def parseContext (s : String) : Option (List (String × String × String)) :=
  parseBlocksFuel s.data.length s.data

/-- The `(section_header, content, summary)` triple of a result. -/
def tripleOf (r : SearchResult) : String × String × String :=
  (r.section_header, r.content, r.summary)

/-- Character-level inside of one block, between the `<document>`
lines. -/
def innerData (r : SearchResult) : List Char :=
  r.section_header.data ++ sepText ++ (r.content.data ++ sepSummary ++ r.summary.data)

/-- Character-level form of one full block. -/
def blockChars (r : SearchResult) : List Char :=
  docOpen ++ innerData r ++ docClose

/-- Delimiter-freeness of one result's fields: the header does not
contain `"\n\nText:"`, the content does not contain `"\n\nSummary:"`,
and no field contains `"</document>"`.  Under these conditions the block
format of section 6 is unambiguous. -/
def OkResult (r : SearchResult) : Prop :=
  ¬ sepText.dropLast <:+: r.section_header.data ∧
    ¬ sepSummary.dropLast <:+: r.content.data ∧
    ¬ ("</document>").data <:+: r.section_header.data ∧
    ¬ ("</document>").data <:+: r.content.data ∧
    ¬ ("</document>").data <:+: r.summary.data

instance (r : SearchResult) : Decidable (OkResult r) := by
  unfold OkResult; infer_instance

/-! ## Concrete values used by witnesses and counterexamples -/

/-- A sample metadata record. -/
def mdSample : Metadata := ⟨"1", "1.1", "text"⟩

/-- Candidates A-E with descending upstream similarity scores. -/
def candA : SearchResult := ⟨"a", "ca", "sa", "ha", 99 / 100, mdSample⟩

/-- Candidate B. -/
def candB : SearchResult := ⟨"b", "cb", "sb", "hb", 98 / 100, mdSample⟩

/-- Candidate C. -/
def candC : SearchResult := ⟨"c", "cc", "sc", "hc", 97 / 100, mdSample⟩

/-- Candidate D. -/
def candD : SearchResult := ⟨"d", "cd", "sd", "hd", 96 / 100, mdSample⟩

/-- Candidate E. -/
def candE : SearchResult := ⟨"e", "ce", "se", "he", 95 / 100, mdSample⟩

/-- The five-candidate list of the spec's concrete reranking scenario. -/
def candsABCDE : List SearchResult := [candA, candB, candC, candD, candE]

/-- A result value that appears three times (by value) in a candidate
list; its score equals the synthetic score of rank 0. -/
def dupRes : SearchResult := ⟨"x", "c", "s", "h", 1, mdSample⟩

/-- A stored point whose chapter is `"3"`. -/
def ptChapter3 : Payload := ⟨"p3", "c3", "s3", "h3", ⟨"3", "3.1", "text"⟩⟩

/-- A constant similarity function for concrete searches. -/
def simOne : Payload → ℚ := fun _ => 1

/-- First forgery result: its content already contains a
`"\n\nSummary:\n"` delimiter. -/
def forgeR1 : SearchResult := ⟨"", "A\n\nSummary:\nB", "C", "H", 0, mdSample⟩

/-- Second forgery result: different content and summary, but the
assembled block is byte-identical to the one of `forgeR1`. -/
def forgeR2 : SearchResult := ⟨"", "A", "B\n\nSummary:\nC", "H", 0, mdSample⟩

/-! # Basic equations of `rerank` -/

theorem rerank_of_length_le (o : ModelOutcome) {results : List SearchResult} {k : ℕ}
    (h : results.length ≤ k) : rerank o results k = some (results, results.take k) := by
  unfold rerank; rw [if_pos h]

theorem rerank_failure_eq (results : List SearchResult) (k : ℕ) :
    rerank .failure results k = some (results, results.take k) := by
  unfold rerank
  by_cases h : results.length ≤ k
  · rw [if_pos h]
  · rw [if_neg h]

theorem rerank_parse_empty {text : String} {results : List SearchResult} (k : ℕ)
    (hp : parseIndices text results.length = []) :
    rerank (.response text) results k = some (results, results.take k) := by
  unfold rerank
  by_cases h : results.length ≤ k
  · rw [if_pos h]
  · rw [if_neg h]
    simp [hp]

theorem parseIndices_lt {text : String} {n : ℕ} : ∀ j ∈ parseIndices text n, j < n := by
  intro j hj
  unfold parseIndices at hj
  rcases List.mem_filterMap.mp hj with ⟨tok, -, htok⟩
  split at htok
  · split_ifs at htok with hc
    · injection htok with hj2
      obtain ⟨h1, h2⟩ := hc
      omega
  · exact absurd htok (by simp)

theorem getD_set_ne {store : List SearchResult} {i j : ℕ} (h : i ≠ j) (e : SearchResult) :
    (store.set i e).getD j dfltRes = store.getD j dfltRes := by
  rw [List.getD_eq_getElem?_getD, List.getD_eq_getElem?_getD, List.getElem?_set_ne h]

theorem getD_set_self {store : List SearchResult} {i : ℕ} (h : i < store.length)
    (e : SearchResult) : (store.set i e).getD i dfltRes = e := by
  rw [List.getD_eq_getElem?_getD, List.getElem?_set_self h, Option.getD_some]

theorem getD_mem_of_lt {l : List ℕ} {m : ℕ} (h : m < l.length) : l.getD m 0 ∈ l := by
  rw [List.getD_eq_getElem?_getD, List.getElem?_eq_getElem h, Option.getD_some]
  exact List.getElem_mem _

theorem buildStore_length (idxs : List ℕ) :
    ∀ (store : List SearchResult) (pos : ℕ),
      (buildStore store pos idxs).length = store.length := by
  induction idxs with
  | nil => intro store pos; rfl
  | cons idx rest ih =>
    intro store pos
    rw [buildStore, ih]
    exact List.length_set ..

theorem buildStore_getD_not_mem (idxs : List ℕ) :
    ∀ (store : List SearchResult) (pos : ℕ) {j : ℕ}, j ∉ idxs →
      (buildStore store pos idxs).getD j dfltRes = store.getD j dfltRes := by
  induction idxs with
  | nil => intros; rfl
  | cons idx rest ih =>
    intro store pos j hj
    rw [buildStore, ih _ _ fun h => hj (List.mem_cons_of_mem _ h)]
    have hne : idx ≠ j := fun h => hj (h ▸ List.mem_cons_self _ _)
    exact getD_set_ne hne _

theorem buildStore_chunk (idxs : List ℕ) :
    ∀ (store : List SearchResult) (pos j : ℕ),
      ((buildStore store pos idxs).getD j dfltRes).chunk_id =
        (store.getD j dfltRes).chunk_id := by
  induction idxs with
  | nil => intros; rfl
  | cons idx rest ih =>
    intro store pos j
    rw [buildStore, ih]
    by_cases hj : idx = j
    · subst hj
      by_cases hlen : idx < store.length
      · rw [getD_set_self hlen]
      · rw [List.set_eq_of_length_le (by omega)]
    · rw [getD_set_ne hj]

theorem buildStore_getD_pos (idxs : List ℕ) :
    ∀ (store : List SearchResult) (pos : ℕ), idxs.Nodup →
      (∀ i ∈ idxs, i < store.length) →
      ∀ m, m < idxs.length →
        (buildStore store pos idxs).getD (idxs.getD m 0) dfltRes =
          { store.getD (idxs.getD m 0) dfltRes with
            score := 1 - ((pos + m : ℕ) : ℚ) * (1 / 20) } := by
  induction idxs with
  | nil => intro _ _ _ _ m hm; exact absurd hm (by simp)
  | cons idx rest ih =>
    intro store pos hnd hlt m hm
    have hidx : idx < store.length := hlt idx (List.mem_cons_self _ _)
    have hnotmem : idx ∉ rest := (List.nodup_cons.mp hnd).1
    cases m with
    | zero =>
      rw [buildStore]
      have hz : (idx :: rest).getD 0 0 = idx := rfl
      rw [hz, buildStore_getD_not_mem rest _ _ hnotmem, getD_set_self hidx]
      rfl
    | succ m' =>
      have hm' : m' < rest.length := by simpa using Nat.lt_of_succ_lt_succ hm
      rw [buildStore]
      have hstep := ih (store.set idx
          { store.getD idx dfltRes with score := 1 - (pos : ℚ) * (1 / 20) })
        (pos + 1) (List.nodup_cons.mp hnd).2
        (by intro i hi; rw [List.length_set]; exact hlt i (List.mem_cons_of_mem _ hi))
        m' hm'
      have hgd : (idx :: rest).getD (m' + 1) 0 = rest.getD m' 0 := rfl
      rw [hgd, hstep]
      have hne : idx ≠ rest.getD m' 0 := fun h => hnotmem (h ▸ getD_mem_of_lt hm')
      rw [getD_set_ne hne]
      have harith : pos + 1 + m' = pos + (m' + 1) := by omega
      rw [harith]

theorem getD_eq_elem {l : List SearchResult} {j : ℕ} (h : j < l.length) :
    l.getD j dfltRes = l[j] := by
  rw [List.getD_eq_getElem?_getD, List.getElem?_eq_getElem h, Option.getD_some]

theorem storeChunkDistinct_of_nodup {l : List SearchResult}
    (h : (l.map SearchResult.chunk_id).Nodup) : StoreChunkDistinct l := by
  have hp := List.pairwise_iff_getElem.mp h
  intro i j hi hj hne
  rw [getD_eq_elem hi, getD_eq_elem hj]
  rcases Nat.lt_or_ge i j with hij | hij
  · have := hp i j (by simpa using hi) (by simpa using hj) hij
    simpa using this
  · have hji : j < i := by omega
    have := hp j i (by simpa using hj) (by simpa using hi) hji
    simp only [List.getElem_map] at this
    exact fun he => this he.symm

theorem buildStore_distinct {store : List SearchResult} (hd : StoreChunkDistinct store)
    (idxs : List ℕ) (pos : ℕ) : StoreChunkDistinct (buildStore store pos idxs) := by
  intro i j hi hj hne
  rw [buildStore_chunk, buildStore_chunk]
  exact hd i j (by rwa [buildStore_length] at hi) (by rwa [buildStore_length] at hj) hne

theorem memVal_eq_mem {store : List SearchResult} (hd : StoreChunkDistinct store)
    {rr : List ℕ} (hrr : ∀ i ∈ rr, i < store.length) {j : ℕ} (hj : j < store.length) :
    memVal store rr j = decide (j ∈ rr) := by
  unfold memVal
  rcases hmem : decide (j ∈ rr) with - | -
  · rw [decide_eq_false_iff_not] at hmem
    rw [List.any_eq_false]
    intro i hi
    simp only [decide_eq_true_eq]
    intro heq
    by_cases hij : i = j
    · exact hmem (hij ▸ hi)
    · exact hd i j (hrr i hi) hj hij (congrArg SearchResult.chunk_id heq)
  · rw [decide_eq_true_eq] at hmem
    rw [List.any_eq_true]
    exact ⟨j, hmem, by simp⟩

theorem padGo_eq {store : List SearchResult} (hd : StoreChunkDistinct store) (k : ℕ) :
    ∀ js rr : List ℕ, js.Nodup → (∀ j ∈ js, j < store.length) →
      (∀ i ∈ rr, i < store.length) → rr.length < k →
      padGo store k rr js =
        rr ++ (js.filter fun j => !decide (j ∈ rr)).take (k - rr.length) := by
  intro js
  induction js with
  | nil => intro rr _ _ _ _; simp [padGo]
  | cons j js' ih =>
    intro rr hnd hjs hrr hlen
    have hjlt : j < store.length := hjs j (List.mem_cons_self _ _)
    have hnotmem : j ∉ js' := (List.nodup_cons.mp hnd).1
    rw [padGo, memVal_eq_mem hd hrr hjlt]
    by_cases hmem : j ∈ rr
    · rw [if_pos (decide_eq_true hmem)]
      rw [ih rr (List.nodup_cons.mp hnd).2
        (fun x hx => hjs x (List.mem_cons_of_mem _ hx)) hrr hlen]
      have : (j :: js').filter (fun x => !decide (x ∈ rr)) =
          js'.filter fun x => !decide (x ∈ rr) := by
        rw [List.filter_cons]
        simp [hmem]
      rw [this]
    · rw [if_neg (by simp [hmem])]
      have hfc : (j :: js').filter (fun x => !decide (x ∈ rr)) =
          j :: js'.filter fun x => !decide (x ∈ rr) := by
        rw [List.filter_cons]
        simp [hmem]
      by_cases hk1 : k ≤ rr.length + 1
      · rw [if_pos hk1]
        have h1 : k - rr.length = 1 := by omega
        rw [hfc, h1]
        simp
      · rw [if_neg hk1]
        rw [ih (rr ++ [j]) (List.nodup_cons.mp hnd).2
          (fun x hx => hjs x (List.mem_cons_of_mem _ hx))
          (by
            intro i hi
            rcases List.mem_append.mp hi with hi | hi
            · exact hrr i hi
            · simp only [List.mem_singleton] at hi
              exact hi ▸ hjlt)
          (by simp; omega)]
        have hfil : js'.filter (fun x => !decide (x ∈ rr ++ [j])) =
            js'.filter fun x => !decide (x ∈ rr) := by
          apply List.filter_congr
          intro x hx
          have hxj : x ≠ j := fun h => hnotmem (h ▸ hx)
          simp [List.mem_append, hxj]
        rw [hfil, hfc]
        have h2 : k - rr.length = (k - (rr.length + 1)) + 1 := by omega
        rw [h2, List.take_succ_cons]
        simp [List.append_assoc]

theorem length_filter_not_add (p : α → Bool) :
    ∀ l : List α, (l.filter p).length + (l.filter fun a => !p a).length = l.length := by
  intro l
  induction l with
  | nil => rfl
  | cons a l ih =>
    rw [List.filter_cons, List.filter_cons]
    cases hp : p a <;> simp [hp] <;> omega

theorem pads_length {n k : ℕ} {parsed : List ℕ} (hlt : parsed.length < k) (hk : k < n)
    (_hp : ∀ j ∈ parsed, j < n) :
    (((List.range n).filter fun j => !decide (j ∈ parsed)).take (k - parsed.length)).length =
      k - parsed.length := by
  have hM : ((List.range n).filter fun j => decide (j ∈ parsed)).length ≤ parsed.length := by
    set M := (List.range n).filter fun j => decide (j ∈ parsed) with hMdef
    have hnodup : M.Nodup := (List.nodup_range n).filter _
    have hsub : M ⊆ parsed := by
      intro x hx
      have := List.mem_filter.mp hx
      simpa using this.2
    calc M.length = M.toFinset.card := (List.toFinset_card_of_nodup hnodup).symm
      _ ≤ parsed.toFinset.card := by
          apply Finset.card_le_card
          intro x hx
          exact List.mem_toFinset.mpr (hsub (List.mem_toFinset.mp hx))
      _ ≤ parsed.length := List.toFinset_card_le _
  have hsum := length_filter_not_add (fun j => decide (j ∈ parsed)) (List.range n)
  rw [List.length_range] at hsum
  rw [List.length_take]
  omega

theorem rerank_response_eq {text : String} {results : List SearchResult} {k : ℕ}
    (hk : k < results.length) (hne : parseIndices text results.length ≠ []) :
    rerank (.response text) results k =
      (let parsed := parseIndices text results.length
       let store := buildStore results 0 (parsed.take k)
       let rr := parsed.take k
       if k ≤ rr.length ∨ results.length ≤ rr.length then
         some (store, (rr.take k).map fun i => store.getD i dfltRes)
       else
         let rr2 := padGo store k rr (List.range results.length)
         if k ≤ rr2.length ∨ results.length ≤ rr2.length then
           some (store, (rr2.take k).map fun i => store.getD i dfltRes)
         else none) := by
  unfold rerank
  rw [if_neg (by omega)]
  dsimp only
  rw [if_neg hne]

theorem rerank_success_full {text : String} {results : List SearchResult} {k : ℕ}
    (hk : k < results.length) (hne : parseIndices text results.length ≠ [])
    (hge : k ≤ (parseIndices text results.length).length) :
    rerank (.response text) results k =
      some (buildStore results 0 ((parseIndices text results.length).take k),
        ((parseIndices text results.length).take k).map fun i =>
          (buildStore results 0 ((parseIndices text results.length).take k)).getD i dfltRes) := by
  rw [rerank_response_eq hk hne]
  dsimp only
  rw [if_pos (by rw [List.length_take]; omega)]
  rw [List.take_take, min_self]

theorem rerank_success_pad {text : String} {results : List SearchResult} {k : ℕ}
    (hk : k < results.length)
    (hchunk : (results.map SearchResult.chunk_id).Nodup)
    (hne : parseIndices text results.length ≠ [])
    (hlt : (parseIndices text results.length).length < k) :
    rerank (.response text) results k =
      some (buildStore results 0 (parseIndices text results.length),
        ((parseIndices text results.length) ++
            (((List.range results.length).filter fun j =>
                !decide (j ∈ parseIndices text results.length)).take
              (k - (parseIndices text results.length).length))).map fun i =>
          (buildStore results 0 (parseIndices text results.length)).getD i dfltRes) := by
  have htk : (parseIndices text results.length).take k = parseIndices text results.length :=
    List.take_of_length_le (le_of_lt hlt)
  have hplt : ∀ j ∈ parseIndices text results.length, j < results.length := parseIndices_lt
  have hd : StoreChunkDistinct (buildStore results 0 (parseIndices text results.length)) :=
    buildStore_distinct (storeChunkDistinct_of_nodup hchunk) _ _
  have hpad := padGo_eq hd k (List.range results.length)
    (parseIndices text results.length) (List.nodup_range _)
    (by intro j hj; rw [buildStore_length]; exact List.mem_range.mp hj)
    (by intro i hi; rw [buildStore_length]; exact hplt i hi) hlt
  have hlen2 : (parseIndices text results.length ++
      (((List.range results.length).filter fun j =>
          !decide (j ∈ parseIndices text results.length)).take
        (k - (parseIndices text results.length).length))).length = k := by
    rw [List.length_append, pads_length hlt hk hplt]
    omega
  rw [rerank_response_eq hk hne]
  dsimp only
  rw [htk]
  rw [if_neg (by push_neg; exact ⟨hlt, by omega⟩)]
  rw [hpad]
  rw [if_pos (by rw [hlen2]; exact Or.inl (le_refl k))]
  rw [List.take_of_length_le (le_of_eq hlen2)]

/-- Claim C10: for every query outcome, candidate list and `k` with
`len(candidates) ≤ k` (the empty list included), `rerank` returns the
candidates unchanged — same elements, same order, same scores — and the
result does not depend on the judgment model's outcome. -/
theorem C10_rerank_small_input_identity (o : ModelOutcome) (results : List SearchResult)
    (k : ℕ) (h : results.length ≤ k) : rerank o results k = some (results, results) := by
  rw [rerank_of_length_le o h, List.take_of_length_le h]

/-- Witness for C10 at a concrete input. -/
theorem C10_rerank_small_input_identity_witness :
    [candA, candB].length ≤ 3 ∧
      rerank (.response "1,0") [candA, candB] 3 = some ([candA, candB], [candA, candB]) :=
  ⟨by decide, C10_rerank_small_input_identity (.response "1,0") [candA, candB] 3 (by decide)⟩

/-- Claim C1 (amended): `rerank` never raises on judgment-model failure
or on an empty post-parse index list — in both of those cases it returns
the first `min(k, len(candidates))` candidates (`results.take k`) in
their upstream order with untouched scores — and, provided the
candidates carry pairwise distinct `chunk_id`s (the data-model
invariant), it returns exactly `min(k, len(candidates))` results in
every case.  The distinctness proviso is what the counterexample forces:
on duplicate candidate values the padding loop never terminates. -/
theorem C1_rerank_fallback_and_exact_length :
    (∀ (results : List SearchResult) (k : ℕ),
        rerank .failure results k = some (results, results.take k)) ∧
      (∀ (text : String) (results : List SearchResult) (k : ℕ),
          parseIndices text results.length = [] →
          rerank (.response text) results k = some (results, results.take k)) ∧
      ∀ (o : ModelOutcome) (results : List SearchResult) (k : ℕ),
        (results.map SearchResult.chunk_id).Nodup →
        ∃ pr, rerank o results k = some pr ∧ pr.2.length = min k results.length := by
  refine ⟨rerank_failure_eq, fun text results k hp => rerank_parse_empty k hp, ?_⟩
  intro o results k hchunk
  by_cases hk : results.length ≤ k
  · exact ⟨(results, results.take k), rerank_of_length_le o hk, by rw [List.length_take]⟩
  · push_neg at hk
    cases o with
    | failure =>
      exact ⟨(results, results.take k), rerank_failure_eq results k, by rw [List.length_take]⟩
    | response text =>
      by_cases hp : parseIndices text results.length = []
      · exact ⟨(results, results.take k), rerank_parse_empty k hp, by rw [List.length_take]⟩
      · by_cases hge : k ≤ (parseIndices text results.length).length
        · refine ⟨_, rerank_success_full hk hp hge, ?_⟩
          simp only [List.length_map, List.length_take]
          omega
        · push_neg at hge
          refine ⟨_, rerank_success_pad hk hchunk hp hge, ?_⟩
          simp only [List.length_map, List.length_append,
            pads_length hge hk parseIndices_lt]
          omega

/-- Witness for the amended C1, at the concrete five-candidate list and
response `"2,0,4"`. -/
theorem C1_rerank_fallback_and_exact_length_witness :
    (candsABCDE.map SearchResult.chunk_id).Nodup ∧
      ∃ pr, rerank (.response "2,0,4") candsABCDE 3 = some pr ∧
        pr.2.length = min 3 candsABCDE.length :=
  ⟨by decide,
    C1_rerank_fallback_and_exact_length.2.2 (.response "2,0,4") candsABCDE 3 (by decide)⟩

/-- Claim C1, counterexample to the universal length statement: on a
candidate list holding three copies of one value (score 1.0, the
synthetic score of rank 0), with `k = 2` and model response `"0"`, the
padding loop of `rerank` makes no progress and the Python loops forever,
so no list of `min(k, len(candidates)) = 2` results is ever returned. -/
theorem C1_counterexample : rerank (.response "0") [dupRes, dupRes, dupRes] 2 = none := by
  with_unfolding_all decide

/-- Claim C2, counterexample: constructing the manager with
`use_memory = False` while the server is unreachable does not surface
any error — it succeeds with the silently substituted in-memory client.
No `IndexUnavailable` error type exists anywhere in the source. -/
theorem C2_counterexample : vdbInit false false = Except.ok QClient.memory := rfl

/-- Claim C2, amended: `VectorDBManager.__init__` never fails; the real
server client is used exactly when `use_memory` is false and the server
is reachable, and in every other case — including the unreachable one
the claim is about — the manager silently falls back to the in-memory
client. -/
theorem C2_vdbInit_silent_fallback :
    ∀ use_memory reachable : Bool,
      (vdbInit use_memory reachable).isOk = true ∧
        (vdbInit use_memory reachable = Except.ok QClient.server ↔
          use_memory = false ∧ reachable = true) := by
  intro um r
  cases um <;> cases r <;> simp [vdbInit, Except.isOk, Except.toBool]

theorem getDN_eq_elem {l : List ℕ} {m : ℕ} (h : m < l.length) : l.getD m 0 = l[m] := by
  rw [List.getD_eq_getElem?_getD, List.getElem?_eq_getElem h, Option.getD_some]

theorem mapStore_getD {results : List SearchResult} {P Q : List ℕ} (hnd : P.Nodup)
    (hb : ∀ i ∈ P, i < results.length) (hpq : P <+: Q) {m : ℕ} (hm : m < P.length) :
    (Q.map fun i => (buildStore results 0 P).getD i dfltRes).getD m dfltRes =
      { results.getD (P.getD m 0) dfltRes with score := 1 - (m : ℚ) * (1 / 20) } := by
  obtain ⟨t, rfl⟩ := hpq
  have hmQ : m < (P ++ t).length := by rw [List.length_append]; omega
  rw [getD_eq_elem (by rw [List.length_map]; exact hmQ), List.getElem_map,
    List.getElem_append_left hm]
  have hgd : P.getD m 0 = P[m] := getDN_eq_elem hm
  rw [← hgd]
  have hpos := buildStore_getD_pos P results 0 hnd hb m hm
  rw [hpos, Nat.zero_add]

theorem synth_score_strict_anti {a b : ℕ} (h : a < b) :
    (1 : ℚ) - (b : ℚ) * (1 / 20) < 1 - (a : ℚ) * (1 / 20) := by
  have hab : (a : ℚ) < (b : ℚ) := by exact_mod_cast h
  have := mul_lt_mul_of_pos_right hab (by norm_num : (0 : ℚ) < 1 / 20)
  linarith

/-- Claim C7 (amended): when `len(candidates) > k`, `rerank` splits the
response on commas, parses tokens as integers, discards non-numeric or
out-of-range tokens, selects the candidates at the first `k` surviving
indices in response order and — provided those surviving indices are
pairwise distinct, which the duplicate-index counterexample forces —
gives them the strictly descending synthetic scores
`1.0, 0.95, 0.90, ...`.  The concrete `"2,0,4"` scenario is the
witness. -/
theorem C7_rerank_parse_select_scores (text : String) (results : List SearchResult)
    (k : ℕ) (hk : k < results.length)
    (hchunk : (results.map SearchResult.chunk_id).Nodup)
    (hne : parseIndices text results.length ≠ [])
    (hnd : ((parseIndices text results.length).take k).Nodup) :
    ∃ out,
      rerank (.response text) results k =
        some (buildStore results 0 ((parseIndices text results.length).take k), out) ∧
        out.length = min k results.length ∧
        (∀ m, m < min k (parseIndices text results.length).length →
          out.getD m dfltRes =
            { results.getD (((parseIndices text results.length).take k).getD m 0) dfltRes with
              score := 1 - (m : ℚ) * (1 / 20) }) ∧
        ∀ m m', m < m' → m' < min k (parseIndices text results.length).length →
          (out.getD m' dfltRes).score < (out.getD m dfltRes).score := by
  have hbP : ∀ i ∈ (parseIndices text results.length).take k, i < results.length :=
    fun i hi => parseIndices_lt i (List.mem_of_mem_take hi)
  have hlenP : ((parseIndices text results.length).take k).length =
      min k (parseIndices text results.length).length := List.length_take ..
  by_cases hge : k ≤ (parseIndices text results.length).length
  · have hpt : ∀ m, m < min k (parseIndices text results.length).length →
        (((parseIndices text results.length).take k).map fun i =>
            (buildStore results 0 ((parseIndices text results.length).take k)).getD i
              dfltRes).getD m dfltRes =
          { results.getD (((parseIndices text results.length).take k).getD m 0) dfltRes with
            score := 1 - (m : ℚ) * (1 / 20) } := by
      intro m hm
      exact mapStore_getD hnd hbP (List.prefix_refl _) (by omega)
    refine ⟨_, rerank_success_full hk hne hge, ?_, hpt, ?_⟩
    · rw [List.length_map, hlenP]; omega
    · intro m m' hmm' hm'
      rw [hpt m' hm', hpt m (lt_trans hmm' hm')]
      exact synth_score_strict_anti hmm'
  · push_neg at hge
    have htk : (parseIndices text results.length).take k = parseIndices text results.length :=
      List.take_of_length_le (le_of_lt hge)
    have hnd' : (parseIndices text results.length).Nodup := htk ▸ hnd
    have hbP' : ∀ i ∈ parseIndices text results.length, i < results.length := parseIndices_lt
    have hpt : ∀ m, m < min k (parseIndices text results.length).length →
        (((parseIndices text results.length) ++
              (((List.range results.length).filter fun j =>
                  !decide (j ∈ parseIndices text results.length)).take
                (k - (parseIndices text results.length).length))).map fun i =>
            (buildStore results 0 (parseIndices text results.length)).getD i
              dfltRes).getD m dfltRes =
          { results.getD ((parseIndices text results.length).getD m 0) dfltRes with
            score := 1 - (m : ℚ) * (1 / 20) } := by
      intro m hm
      exact mapStore_getD hnd' hbP'
        (List.prefix_append _ _) (by omega)
    refine ⟨((parseIndices text results.length) ++
        (((List.range results.length).filter fun j =>
            !decide (j ∈ parseIndices text results.length)).take
          (k - (parseIndices text results.length).length))).map fun i =>
        (buildStore results 0 (parseIndices text results.length)).getD i dfltRes,
      ?_, ?_, ?_, ?_⟩
    · rw [htk]
      exact rerank_success_pad hk hchunk hne hge
    · rw [List.length_map, List.length_append, pads_length hge hk hbP']
      omega
    · intro m hm
      rw [htk]
      exact hpt m hm
    · intro m m' hmm' hm'
      rw [hpt m' hm', hpt m (lt_trans hmm' hm')]
      exact synth_score_strict_anti hmm'

/-- Witness for the amended C7: the spec's concrete scenario — response
`"2,0,4"` on five candidates with `k = 3` — instantiates it, and the
selected prefix carries scores `1.0, 0.95, 0.90`. -/
theorem C7_rerank_parse_select_scores_witness :
    3 < candsABCDE.length ∧
      (∃ out,
        rerank (.response "2,0,4") candsABCDE 3 =
          some (buildStore candsABCDE 0 ((parseIndices "2,0,4" candsABCDE.length).take 3),
            out) ∧
          out.length = min 3 candsABCDE.length ∧
          (∀ m, m < min 3 (parseIndices "2,0,4" candsABCDE.length).length →
            out.getD m dfltRes =
              { candsABCDE.getD (((parseIndices "2,0,4" candsABCDE.length).take 3).getD m 0)
                  dfltRes with score := 1 - (m : ℚ) * (1 / 20) }) ∧
          ∀ m m', m < m' → m' < min 3 (parseIndices "2,0,4" candsABCDE.length).length →
            (out.getD m' dfltRes).score < (out.getD m dfltRes).score) :=
  ⟨by decide,
    C7_rerank_parse_select_scores "2,0,4" candsABCDE 3 (by decide) (by decide)
      (by decide) (by decide)⟩

theorem map_getD_res {Q : List ℕ} (f : ℕ → SearchResult) {m : ℕ} (hm : m < Q.length) :
    (Q.map f).getD m dfltRes = f (Q.getD m 0) := by
  rw [getD_eq_elem (by simpa using hm), List.getElem_map, getDN_eq_elem hm]

theorem prefix_getD {P Q : List ℕ} (hpq : P <+: Q) {m : ℕ} (hm : m < P.length) :
    Q.getD m 0 = P.getD m 0 := by
  obtain ⟨t, rfl⟩ := hpq
  rw [getDN_eq_elem hm, getDN_eq_elem (m := m) (by rw [List.length_append]; omega),
    List.getElem_append_left hm]

/-- Claim C5 (amended): `rerank` does mutate the `SearchResult`s it was
given — in the success path every selected candidate's `score` field is
overwritten in place with its synthetic score `1.0 - 0.05 * position`,
unselected candidates are untouched, and the returned entries are
aliases of the (mutated) candidate slots rather than freshly constructed
values. -/
theorem C5_rerank_mutates_in_place (text : String) (results : List SearchResult)
    (k : ℕ) (hk : k < results.length)
    (hchunk : (results.map SearchResult.chunk_id).Nodup)
    (hne : parseIndices text results.length ≠ [])
    (hnd : ((parseIndices text results.length).take k).Nodup) :
    ∃ store out, rerank (.response text) results k = some (store, out) ∧
      store.length = results.length ∧
      (∀ j, j < results.length → j ∉ (parseIndices text results.length).take k →
        store.getD j dfltRes = results.getD j dfltRes) ∧
      (∀ m, m < ((parseIndices text results.length).take k).length →
        store.getD (((parseIndices text results.length).take k).getD m 0) dfltRes =
          { results.getD (((parseIndices text results.length).take k).getD m 0) dfltRes with
            score := 1 - (m : ℚ) * (1 / 20) }) ∧
      ∀ m, m < min k (parseIndices text results.length).length →
        out.getD m dfltRes =
          store.getD (((parseIndices text results.length).take k).getD m 0) dfltRes := by
  have hbP : ∀ i ∈ (parseIndices text results.length).take k, i < results.length :=
    fun i hi => parseIndices_lt i (List.mem_of_mem_take hi)
  have hlenP : ((parseIndices text results.length).take k).length =
      min k (parseIndices text results.length).length := List.length_take ..
  by_cases hge : k ≤ (parseIndices text results.length).length
  · refine ⟨buildStore results 0 ((parseIndices text results.length).take k),
      ((parseIndices text results.length).take k).map fun i =>
        (buildStore results 0 ((parseIndices text results.length).take k)).getD i dfltRes,
      rerank_success_full hk hne hge, buildStore_length .., ?_, ?_, ?_⟩
    · intro j _ hnot
      exact buildStore_getD_not_mem _ _ _ hnot
    · intro m hm
      rw [buildStore_getD_pos _ results 0 hnd hbP m hm, Nat.zero_add]
    · intro m hm
      have hmP : m < ((parseIndices text results.length).take k).length := by omega
      rw [map_getD_res _ hmP]
  · push_neg at hge
    have htk : (parseIndices text results.length).take k = parseIndices text results.length :=
      List.take_of_length_le (le_of_lt hge)
    have hnd' : (parseIndices text results.length).Nodup := htk ▸ hnd
    have hbP' : ∀ i ∈ parseIndices text results.length, i < results.length := parseIndices_lt
    refine ⟨buildStore results 0 ((parseIndices text results.length).take k),
      ((parseIndices text results.length) ++
          (((List.range results.length).filter fun j =>
              !decide (j ∈ parseIndices text results.length)).take
            (k - (parseIndices text results.length).length))).map fun i =>
        (buildStore results 0 (parseIndices text results.length)).getD i dfltRes,
      ?_, buildStore_length .., ?_, ?_, ?_⟩
    · rw [htk]
      exact rerank_success_pad hk hchunk hne hge
    · intro j _ hnot
      exact buildStore_getD_not_mem _ _ _ hnot
    · intro m hm
      rw [buildStore_getD_pos _ results 0 hnd hbP m hm, Nat.zero_add]
    · intro m hm
      rw [htk]
      have hmP : m < (parseIndices text results.length).length := by omega
      have hmQ : m < ((parseIndices text results.length) ++
          (((List.range results.length).filter fun j =>
              !decide (j ∈ parseIndices text results.length)).take
            (k - (parseIndices text results.length).length))).length := by
        rw [List.length_append]
        omega
      rw [map_getD_res _ hmQ, prefix_getD (List.prefix_append _ _) hmP]

/-- Witness for the amended C5 at the concrete `"2,0,4"` scenario. -/
theorem C5_rerank_mutates_in_place_witness :
    3 < candsABCDE.length ∧
      ∃ store out, rerank (.response "2,0,4") candsABCDE 3 = some (store, out) ∧
        store.length = candsABCDE.length ∧
        (∀ j, j < candsABCDE.length → j ∉ (parseIndices "2,0,4" candsABCDE.length).take 3 →
          store.getD j dfltRes = candsABCDE.getD j dfltRes) ∧
        (∀ m, m < ((parseIndices "2,0,4" candsABCDE.length).take 3).length →
          store.getD (((parseIndices "2,0,4" candsABCDE.length).take 3).getD m 0) dfltRes =
            { candsABCDE.getD (((parseIndices "2,0,4" candsABCDE.length).take 3).getD m 0)
                dfltRes with score := 1 - (m : ℚ) * (1 / 20) }) ∧
        ∀ m, m < min 3 (parseIndices "2,0,4" candsABCDE.length).length →
          out.getD m dfltRes =
            store.getD (((parseIndices "2,0,4" candsABCDE.length).take 3).getD m 0) dfltRes :=
  ⟨by decide,
    C5_rerank_mutates_in_place "2,0,4" candsABCDE 3 (by decide) (by decide) (by decide)
      (by decide)⟩

/-- Claim C5, counterexample: `rerank` with response `"2,0,4"` on the
five sample candidates mutates the caller's list — afterwards the
candidates carry scores `[0.95, 0.98, 1.0, 0.96, 0.90]` instead of their
original ones, because positions 2, 0 and 4 were overwritten in place
with the synthetic scores. -/
theorem C5_counterexample :
    (rerank (.response "2,0,4") candsABCDE 3).map Prod.fst ≠ some candsABCDE ∧
      (rerank (.response "2,0,4") candsABCDE 3).map (fun p => p.1.map SearchResult.score) =
        some [19 / 20, 98 / 100, 1, 96 / 100, 9 / 10] := by
  with_unfolding_all decide

/-- Claim C8: when parsing yields at least one but fewer than `k` valid
indices, `rerank` fills the remaining slots with the highest-scoring
candidates not already selected — no duplicates — until `k` results are
reached.  Stated under the upstream invariants the claim presupposes:
candidates arrive sorted by non-increasing score (the vector-index
contract) and carry pairwise distinct `chunk_id`s (the data model);
"highest-scoring" is the maximality clause over unselected, unpadded
candidates. -/
theorem C8_rerank_padding_rule (text : String) (results : List SearchResult) (k : ℕ)
    (hk : k < results.length)
    (hchunk : (results.map SearchResult.chunk_id).Nodup)
    (hsorted : List.Pairwise resGe results)
    (hne : parseIndices text results.length ≠ [])
    (hlt : (parseIndices text results.length).length < k) :
    let parsed := parseIndices text results.length
    let store := buildStore results 0 parsed
    let pads := ((List.range results.length).filter fun j => !decide (j ∈ parsed)).take
      (k - parsed.length)
    rerank (.response text) results k =
        some (store, (parsed ++ pads).map fun i => store.getD i dfltRes) ∧
      (parsed ++ pads).length = k ∧
      pads.Nodup ∧
      (∀ j ∈ pads, j ∉ parsed) ∧
      (∀ j ∈ pads, store.getD j dfltRes = results.getD j dfltRes) ∧
      ∀ j ∈ pads, ∀ j', j' < results.length → j' ∉ parsed → j' ∉ pads →
        (results.getD j' dfltRes).score ≤ (results.getD j dfltRes).score := by
  intro parsed store pads
  have hplt : ∀ j ∈ parsed, j < results.length := parseIndices_lt
  have hLnodup : ((List.range results.length).filter fun j => !decide (j ∈ parsed)).Nodup :=
    (List.nodup_range _).filter _
  have hpadsub : List.Sublist pads
      ((List.range results.length).filter fun j => !decide (j ∈ parsed)) :=
    List.take_sublist _ _
  have hpadmem : ∀ j ∈ pads, j < results.length ∧ j ∉ parsed := by
    intro j hj
    have hjL := hpadsub.subset hj
    have := List.mem_filter.mp hjL
    refine ⟨List.mem_range.mp this.1, ?_⟩
    simpa using this.2
  refine ⟨rerank_success_pad hk hchunk hne hlt, ?_, ?_, fun j hj => (hpadmem j hj).2,
    fun j hj => buildStore_getD_not_mem _ _ _ (hpadmem j hj).2, ?_⟩
  · have hpl : pads.length = k - parsed.length := pads_length hlt hk hplt
    have hlt' : parsed.length < k := hlt
    rw [List.length_append, hpl]
    omega
  · exact List.Pairwise.sublist hpadsub hLnodup
  · intro j hj j' hj'lt hj'parsed hj'pads
    have hjlt : j < results.length := (hpadmem j hj).1
    have hj'L : j' ∈ (List.range results.length).filter fun x => !decide (x ∈ parsed) := by
      rw [List.mem_filter]
      exact ⟨List.mem_range.mpr hj'lt, by simpa using hj'parsed⟩
    have hLsorted : List.Pairwise (· < ·)
        ((List.range results.length).filter fun x => !decide (x ∈ parsed)) :=
      (List.sorted_lt_range _).filter _
    have hsplit := List.take_append_drop (k - parsed.length)
      ((List.range results.length).filter fun x => !decide (x ∈ parsed))
    have hp : List.Pairwise (· < ·) (pads ++
        ((List.range results.length).filter fun x => !decide (x ∈ parsed)).drop
          (k - parsed.length)) := by
      rw [hsplit]
      exact hLsorted
    have hj'drop : j' ∈ ((List.range results.length).filter fun x =>
        !decide (x ∈ parsed)).drop (k - parsed.length) := by
      rcases List.mem_append.mp (by rw [hsplit]; exact hj'L :
          j' ∈ pads ++ ((List.range results.length).filter fun x =>
            !decide (x ∈ parsed)).drop (k - parsed.length)) with h | h
      · exact absurd h hj'pads
      · exact h
    have hjj' : j < j' := (List.pairwise_append.mp hp).2.2 j hj j' hj'drop
    have hsc := List.pairwise_iff_getElem.mp hsorted j j' hjlt hj'lt hjj'
    rw [getD_eq_elem hj'lt, getD_eq_elem hjlt]
    exact hsc

/-- Witness for C8 at the concrete padding scenario: response `"3,2"`,
four sorted candidates, `k = 3`. -/
theorem C8_rerank_padding_rule_witness :
    3 < [candA, candB, candC, candD].length ∧
      (let parsed := parseIndices "3,2" [candA, candB, candC, candD].length
       let store := buildStore [candA, candB, candC, candD] 0 parsed
       let pads := ((List.range [candA, candB, candC, candD].length).filter fun j =>
         !decide (j ∈ parsed)).take (3 - parsed.length)
       rerank (.response "3,2") [candA, candB, candC, candD] 3 =
          some (store, (parsed ++ pads).map fun i => store.getD i dfltRes) ∧
        (parsed ++ pads).length = 3 ∧
        pads.Nodup ∧
        (∀ j ∈ pads, j ∉ parsed) ∧
        (∀ j ∈ pads, store.getD j dfltRes = [candA, candB, candC, candD].getD j dfltRes) ∧
        ∀ j ∈ pads, ∀ j', j' < [candA, candB, candC, candD].length → j' ∉ parsed →
          j' ∉ pads → ([candA, candB, candC, candD].getD j' dfltRes).score ≤
            ([candA, candB, candC, candD].getD j dfltRes).score) :=
  ⟨by decide,
    C8_rerank_padding_rule "3,2" [candA, candB, candC, candD] 3 (by decide) (by decide)
      (by with_unfolding_all decide) (by decide) (by decide)⟩

/-- Claim C6, counterexample: with candidates scored
`[0.99, 0.98, 0.97, 0.96]`, `k = 3` and response `"3,2"`, parsing yields
two indices, the padding appends candidate 0 with its untouched score
`0.99`, and the returned scores `[1.0, 0.95, 0.99]` are not
non-increasing. -/
theorem C6_counterexample :
    (rerank (.response "3,2") [candA, candB, candC, candD] 3).map
        (fun p => p.2.map SearchResult.score) = some [1, 19 / 20, 99 / 100] ∧
      ¬ List.Pairwise (fun a b : ℚ => b ≤ a) [1, 19 / 20, 99 / 100] := by
  with_unfolding_all decide

theorem take_scores_pairwise {results : List SearchResult} (k : ℕ)
    (h : List.Pairwise resGe results) :
    List.Pairwise (fun a b : ℚ => b ≤ a) ((results.take k).map SearchResult.score) :=
  List.pairwise_map.mpr ((List.Pairwise.sublist (List.take_sublist ..) h).imp fun hr => hr)

theorem sorted_take_scores (d : List SearchResult) (n : ℕ) :
    List.Pairwise (fun a b : ℚ => b ≤ a)
      (((d.insertionSort resGe).take n).map SearchResult.score) := by
  have hs : List.Pairwise resGe (d.insertionSort resGe) := List.sorted_insertionSort resGe d
  have ht := List.Pairwise.sublist (List.take_sublist n _) hs
  exact List.pairwise_map.mpr (ht.imp fun hr => hr)

/-- Claim C6 (amended): the score field is non-increasing in list order
for every list returned by `VectorDBManager.search` and by
`RAGRetriever.retrieve_for_exam_question`; for `LLMReranker.rerank` it
holds in the three fallback paths whenever the incoming candidates are
themselves non-increasing, and in the success path when parsing yields
at least `k` pairwise-distinct indices (no padding).  When padding
occurs the padded entries keep their original scores and can exceed the
preceding synthetic score, so the invariant fails there — that is what
the counterexample forces out of the original claim. -/
theorem C6_score_nonincreasing_amended :
    (∀ (points : List Payload) (sim : Payload → ℚ) (top_k : ℕ) (cf ctf : Option String),
        List.Pairwise (fun a b : ℚ => b ≤ a)
          ((vdbSearch points sim top_k cf ctf).map SearchResult.score)) ∧
      (∀ (searchFn : String → ℕ → List SearchResult) (scenario question : String)
          (options : List String) (k : ℕ),
        List.Pairwise (fun a b : ℚ => b ≤ a)
          ((retrieveForExamQuestion searchFn scenario question options k).1.map
            SearchResult.score)) ∧
      (∀ (results : List SearchResult) (k : ℕ) (st out : List SearchResult),
        List.Pairwise resGe results → rerank .failure results k = some (st, out) →
        List.Pairwise (fun a b : ℚ => b ≤ a) (out.map SearchResult.score)) ∧
      (∀ (text : String) (results : List SearchResult) (k : ℕ)
          (st out : List SearchResult),
        parseIndices text results.length = [] → List.Pairwise resGe results →
        rerank (.response text) results k = some (st, out) →
        List.Pairwise (fun a b : ℚ => b ≤ a) (out.map SearchResult.score)) ∧
      (∀ (o : ModelOutcome) (results : List SearchResult) (k : ℕ)
          (st out : List SearchResult),
        results.length ≤ k → List.Pairwise resGe results →
        rerank o results k = some (st, out) →
        List.Pairwise (fun a b : ℚ => b ≤ a) (out.map SearchResult.score)) ∧
      ∀ (text : String) (results : List SearchResult) (k : ℕ)
          (st out : List SearchResult),
        k < results.length → parseIndices text results.length ≠ [] →
        k ≤ (parseIndices text results.length).length →
        ((parseIndices text results.length).take k).Nodup →
        rerank (.response text) results k = some (st, out) →
        List.Pairwise (fun a b : ℚ => b ≤ a) (out.map SearchResult.score) := by
  refine ⟨?_, ?_, ?_, ?_, ?_, ?_⟩
  · intro points sim top_k cf ctf
    have hs : List.Pairwise scoredGe
        (((points.filter fun p =>
            matchesFilter (buildSearchFilter cf ctf) p.metadata).map fun p =>
          (p, sim p)).insertionSort scoredGe) :=
      List.sorted_insertionSort scoredGe _
    have ht := List.Pairwise.sublist (List.take_sublist top_k _) hs
    unfold vdbSearch qdrantSearch
    rw [List.map_map]
    exact List.pairwise_map.mpr (ht.imp fun hr => hr)
  · intro searchFn scenario question options k
    exact sorted_take_scores _ _
  · intro results k st out hp hrw
    rw [rerank_failure_eq] at hrw
    simp only [Option.some.injEq, Prod.mk.injEq] at hrw
    obtain ⟨-, rfl⟩ := hrw
    exact take_scores_pairwise k hp
  · intro text results k st out hempty hp hrw
    rw [rerank_parse_empty k hempty] at hrw
    simp only [Option.some.injEq, Prod.mk.injEq] at hrw
    obtain ⟨-, rfl⟩ := hrw
    exact take_scores_pairwise k hp
  · intro o results k st out hle hp hrw
    rw [rerank_of_length_le o hle] at hrw
    simp only [Option.some.injEq, Prod.mk.injEq] at hrw
    obtain ⟨-, rfl⟩ := hrw
    exact take_scores_pairwise k hp
  · intro text results k st out hk hne hge hnd hrw
    rw [rerank_success_full hk hne hge] at hrw
    simp only [Option.some.injEq, Prod.mk.injEq] at hrw
    obtain ⟨-, rfl⟩ := hrw
    have hbP : ∀ i ∈ (parseIndices text results.length).take k, i < results.length :=
      fun i hi => parseIndices_lt i (List.mem_of_mem_take hi)
    apply List.pairwise_iff_getElem.mpr
    intro i j hi hj hij
    simp only [List.length_map, List.length_take] at hi hj
    have hiP : i < ((parseIndices text results.length).take k).length := by
      rw [List.length_take]; omega
    have hjP : j < ((parseIndices text results.length).take k).length := by
      rw [List.length_take]; omega
    have hpi := buildStore_getD_pos ((parseIndices text results.length).take k)
      results 0 hnd hbP i hiP
    have hpj := buildStore_getD_pos ((parseIndices text results.length).take k)
      results 0 hnd hbP j hjP
    rw [getDN_eq_elem hiP] at hpi
    rw [getDN_eq_elem hjP] at hpj
    rw [Nat.zero_add] at hpi hpj
    simp only [List.getElem_map]
    rw [hpi, hpj]
    exact le_of_lt (synth_score_strict_anti hij)

/-- Witness for the amended C6: the judgment-failure fallback on the
five sorted sample candidates returns a list with non-increasing
scores. -/
theorem C6_score_nonincreasing_amended_witness :
    List.Pairwise resGe candsABCDE ∧
      rerank .failure candsABCDE 2 = some (candsABCDE, candsABCDE.take 2) ∧
      List.Pairwise (fun a b : ℚ => b ≤ a) ((candsABCDE.take 2).map SearchResult.score) :=
  ⟨by with_unfolding_all decide, by with_unfolding_all decide,
    C6_score_nonincreasing_amended.2.2.1 candsABCDE 2 candsABCDE (candsABCDE.take 2)
      (by with_unfolding_all decide) (by with_unfolding_all decide)⟩

/-- Claim C7, counterexample: the response `"2,0,4"` scenario holds, but
the general strict-descent statement fails when the parsed index list
repeats an index: on response `"2,2,0"` the same candidate object is
selected twice and its score is overwritten twice, so the returned
scores are `[0.95, 0.95, 0.90]`, not the claimed `[1.0, 0.95, 0.90]`. -/
theorem C7_counterexample :
    (rerank (.response "2,2,0") candsABCDE 3).map (fun p => p.2.map SearchResult.score) =
        some [19 / 20, 19 / 20, 9 / 10] ∧
      (rerank (.response "2,2,0") candsABCDE 3).map (fun p => p.2.map SearchResult.score) ≠
        some [1, 19 / 20, 9 / 10] := by
  with_unfolding_all decide

theorem foldl_replace_eq_ifAbsent :
    ∀ l d : List SearchResult, (l.map SearchResult.chunk_id).Nodup →
      (∀ r ∈ l, ∀ x ∈ d, x.chunk_id ≠ r.chunk_id) →
      l.foldl dictInsertReplace d = l.foldl dictInsertIfAbsent d := by
  intro l
  induction l with
  | nil => intro d _ _; rfl
  | cons r l ih =>
    intro d hnd hdisj
    have hnd' : (r.chunk_id :: l.map SearchResult.chunk_id).Nodup := by simpa using hnd
    have hkey : (d.any fun x => decide (x.chunk_id = r.chunk_id)) = false := by
      rw [List.any_eq_false]
      intro x hx
      simpa using hdisj r (List.mem_cons_self ..) x hx
    have hstep : dictInsertReplace d r = d ++ [r] := by
      unfold dictInsertReplace
      rw [hkey]
      simp
    have hstep2 : dictInsertIfAbsent d r = d ++ [r] := by
      unfold dictInsertIfAbsent
      rw [hkey]
      simp
    rw [List.foldl_cons, List.foldl_cons, hstep, hstep2]
    apply ih
    · exact (List.nodup_cons.mp hnd').2
    · intro s hs x hx
      rcases List.mem_append.mp hx with hx | hx
      · exact hdisj s (List.mem_cons_of_mem _ hs) x hx
      · simp only [List.mem_singleton] at hx
        subst hx
        intro he
        exact (List.nodup_cons.mp hnd').1
          (by rw [he]; exact List.mem_map_of_mem _ hs)

theorem foldl_ifAbsent_keys_nodup :
    ∀ l d : List SearchResult, (d.map SearchResult.chunk_id).Nodup →
      ((l.foldl dictInsertIfAbsent d).map SearchResult.chunk_id).Nodup := by
  intro l
  induction l with
  | nil => intro d hd; exact hd
  | cons r l ih =>
    intro d hd
    rw [List.foldl_cons]
    apply ih
    unfold dictInsertIfAbsent
    by_cases hk : (d.any fun x => decide (x.chunk_id = r.chunk_id)) = true
    · rw [if_pos hk]; exact hd
    · rw [if_neg hk]
      rw [List.map_append]
      refine List.Nodup.append hd (by simp) ?_
      intro a ha ha2
      simp only [List.map_cons, List.map_nil, List.mem_singleton] at ha2
      subst ha2
      rcases List.mem_map.mp ha with ⟨x, hx, hxa⟩
      have hk' := List.any_eq_false.mp (Bool.eq_false_iff.mpr hk) x hx
      simp only [decide_eq_true_eq] at hk'
      exact hk' hxa

theorem examMerge_eq_dedup (main : List SearchResult) (opts : List (List SearchResult))
    (hmain : (main.map SearchResult.chunk_id).Nodup) :
    opts.foldl (fun acc lst => lst.foldl dictInsertIfAbsent acc)
        (main.foldl dictInsertReplace []) = dedupFirst (main ++ opts.flatten) := by
  rw [foldl_replace_eq_ifAbsent main [] hmain
    (by intro r _ x hx; exact absurd hx (List.not_mem_nil _))]
  unfold dedupFirst
  rw [List.foldl_append, List.foldl_flatten]

/-- Claim C3: `retrieve_for_exam_question` merges the per-query result
lists keyed by `chunk_id` with first occurrence winning (main query
first, then option queries in order; later duplicates dropped without
overwriting — `dedupFirst` is exactly that rule), returns each
`chunk_id` at most once, sorted by non-increasing score, capped at 12.
Stated under the data-model invariant that one retrieval returns
pairwise distinct `chunk_id`s (needed because the main-query loop's
plain dict assignment would otherwise let a later duplicate
overwrite). -/
theorem C3_retrieve_dedup_sort_cap (searchFn : String → ℕ → List SearchResult)
    (scenario question : String) (options : List String) (k : ℕ)
    (hmain : ((searchFn (scenario ++ " " ++ question) k).map SearchResult.chunk_id).Nodup) :
    let main := searchFn (scenario ++ " " ++ question) k
    let opts := options.map fun opt => searchFn (question ++ " " ++ opt) (max 3 (k / 2))
    let merged := dedupFirst (main ++ opts.flatten)
    let final := (retrieveForExamQuestion searchFn scenario question options k).1
    final = (merged.insertionSort resGe).take
        (min 12 (merged.insertionSort resGe).length) ∧
      (final.map SearchResult.chunk_id).Nodup ∧
      List.Pairwise resGe final ∧
      final.length ≤ 12 := by
  intro main opts merged final
  have hme : opts.foldl (fun acc lst => lst.foldl dictInsertIfAbsent acc)
      (main.foldl dictInsertReplace []) = merged := examMerge_eq_dedup main opts hmain
  have hfinal : final = (merged.insertionSort resGe).take
      (min 12 (merged.insertionSort resGe).length) := by
    show examMerge main opts = _
    unfold examMerge
    dsimp only
    rw [hme]
  refine ⟨hfinal, ?_, ?_, ?_⟩
  · rw [hfinal]
    have h1 : (merged.map SearchResult.chunk_id).Nodup :=
      foldl_ifAbsent_keys_nodup _ [] (by simp)
    have hperm : List.Perm (merged.insertionSort resGe) merged :=
      List.perm_insertionSort resGe merged
    have hmn : ((merged.insertionSort resGe).map SearchResult.chunk_id).Nodup :=
      ((hperm.map SearchResult.chunk_id).nodup_iff).mpr h1
    exact List.Pairwise.sublist ((List.take_sublist _ _).map _) hmn
  · rw [hfinal]
    exact List.Pairwise.sublist (List.take_sublist _ _)
      (List.sorted_insertionSort resGe merged)
  · rw [hfinal, List.length_take]
    omega

/-- Witness for C3 at a concrete two-result search function. -/
theorem C3_retrieve_dedup_sort_cap_witness :
    (((fun (_ : String) (_ : ℕ) => [candA, candB]) ("s" ++ " " ++ "q") 2).map
        SearchResult.chunk_id).Nodup ∧
      (let main := (fun (_ : String) (_ : ℕ) => [candA, candB]) ("s" ++ " " ++ "q") 2
       let opts := ["o1"].map fun opt =>
         (fun (_ : String) (_ : ℕ) => [candA, candB]) ("q" ++ " " ++ opt) (max 3 (2 / 2))
       let merged := dedupFirst (main ++ opts.flatten)
       let final := (retrieveForExamQuestion (fun _ _ => [candA, candB]) "s" "q" ["o1"] 2).1
       final = (merged.insertionSort resGe).take
           (min 12 (merged.insertionSort resGe).length) ∧
         (final.map SearchResult.chunk_id).Nodup ∧
         List.Pairwise resGe final ∧
         final.length ≤ 12) :=
  ⟨by decide,
    C3_retrieve_dedup_sort_cap (fun _ _ => [candA, candB]) "s" "q" ["o1"] 2 (by decide)⟩

/-- Claim C9 (amended): every `SearchResult` returned by
`VectorDBManager.search` satisfies the equality predicate of each filter
field whose value is truthy (a non-empty string); a field that is absent
— or present with the falsy empty-string value, as the counterexample
forces — imposes no constraint. -/
theorem C9_vdbSearch_filter_soundness (points : List Payload) (sim : Payload → ℚ)
    (top_k : ℕ) (cf ctf : Option String) (r : SearchResult)
    (hr : r ∈ vdbSearch points sim top_k cf ctf) :
    (∀ s, cf = some s → s ≠ "" → r.metadata.chapter_num = s) ∧
      ∀ s, ctf = some s → s ≠ "" → r.metadata.content_type = s := by
  unfold vdbSearch qdrantSearch at hr
  rcases List.mem_map.mp hr with ⟨pr, hpr, rfl⟩
  have hpr2 := List.mem_of_mem_take hpr
  rw [List.mem_insertionSort] at hpr2
  rcases List.mem_map.mp hpr2 with ⟨p, hpf, rfl⟩
  have hmatch := (List.mem_filter.mp hpf).2
  constructor
  · intro s hcf hsne
    subst hcf
    have ht : truthy (some s) = true := by
      unfold truthy
      simpa using hsne
    have hc : FieldCondition.mk .chapterNum s ∈ buildSearchFilter (some s) ctf := by
      unfold buildSearchFilter
      rw [ht]
      simp
    have hcond := List.all_eq_true.mp hmatch _ hc
    simpa [matchesCondition, toSearchResult] using hcond
  · intro s hctf hsne
    subst hctf
    have ht : truthy (some s) = true := by
      unfold truthy
      simpa using hsne
    have hc : FieldCondition.mk .contentType s ∈ buildSearchFilter cf (some s) := by
      unfold buildSearchFilter
      rw [ht]
      simp
    have hcond := List.all_eq_true.mp hmatch _ hc
    simpa [matchesCondition, toSearchResult] using hcond

/-- Witness for the amended C9: a search filtered on chapter `"3"`
returns the chapter-3 point and the theorem yields its exact match. -/
theorem C9_vdbSearch_filter_soundness_witness :
    (⟨"p3", "c3", "s3", "h3", 1, ⟨"3", "3.1", "text"⟩⟩ : SearchResult) ∈
        vdbSearch [ptChapter3] simOne 5 (some "3") none ∧
      (∀ s, (some "3" : Option String) = some s → s ≠ "" →
        (⟨"p3", "c3", "s3", "h3", 1,
          (⟨"3", "3.1", "text"⟩ : Metadata)⟩ : SearchResult).metadata.chapter_num = s) ∧
      ∀ s, (none : Option String) = some s → s ≠ "" →
        (⟨"p3", "c3", "s3", "h3", 1,
          (⟨"3", "3.1", "text"⟩ : Metadata)⟩ : SearchResult).metadata.content_type = s :=
  ⟨by with_unfolding_all decide,
    C9_vdbSearch_filter_soundness [ptChapter3] simOne 5 (some "3") none _
      (by with_unfolding_all decide)⟩

/-- Claim C9, counterexample: an empty-string `chapter_filter` is falsy
in Python, so `search` builds no chapter condition at all and returns a
point whose `chapter_num` is `"3"` — the claimed exact match on the
empty string does not happen. -/
theorem C9_counterexample :
    (vdbSearch [ptChapter3] simOne 5 (some "") none).map
        (fun r => r.metadata.chapter_num) = ["3"] ∧ ("3" : String) ≠ "" := by
  with_unfolding_all decide

theorem splitFirst_of_no_occ {sep : List Char} (_hsep : sep ≠ []) :
    ∀ h tail : List Char, (∀ i, i < h.length → ¬ sep <+: ((h ++ sep ++ tail).drop i)) →
      splitFirst sep (h ++ sep ++ tail) = some (h, tail) := by
  intro h
  induction h with
  | nil =>
    intro tail _
    rw [splitFirst.eq_def]
    rw [if_pos (by simp)]
    simp [List.drop_left]
  | cons a h' ih =>
    intro tail hocc
    have hbase : ¬ sep <+: ((a :: h') ++ sep ++ tail) := by
      have := hocc 0 (by simp)
      simpa using this
    rw [splitFirst.eq_def]
    rw [if_neg (by simpa using hbase)]
    simp only [List.cons_append]
    have hrec := ih tail (by
      intro i hi
      have := hocc (i + 1) (by simpa using Nat.succ_lt_succ hi)
      simpa [List.cons_append] using this)
    rw [hrec]
    rfl

theorem no_occ {sep : List Char} (hsep : sep ≠ [])
    (hborder : ∀ d, d < sep.length → 0 < d → d + 1 ≠ sep.length →
      sep.drop d ≠ sep.take (sep.length - d))
    {h : List Char} (hguard : ¬ sep.dropLast <:+: h) (tail : List Char) :
    ∀ i, i < h.length → ¬ sep <+: ((h ++ sep ++ tail).drop i) := by
  intro i hi hpre
  have hdrop : (h ++ sep ++ tail).drop i = h.drop i ++ (sep ++ tail) := by
    rw [List.append_assoc, List.drop_append_of_le_length (le_of_lt hi)]
  rw [hdrop] at hpre
  have hulen : (h.drop i).length = h.length - i := List.length_drop ..
  have husuf : (h.drop i) <:+ h := List.drop_suffix ..
  obtain ⟨w, hw⟩ := hpre
  by_cases hcase : sep.length ≤ (h.drop i).length
  · have hsp : sep = (h.drop i).take sep.length := by
      have h1 : (sep ++ w).take sep.length = sep := List.take_left ..
      rw [hw, List.take_append_of_le_length hcase] at h1
      exact h1.symm
    have husplit : h.drop i = sep ++ (h.drop i).drop sep.length := by
      conv_lhs => rw [← List.take_append_drop sep.length (h.drop i)]
      rw [← hsp]
    apply hguard
    obtain ⟨v, hv⟩ := husuf
    have heq : v ++ (sep.dropLast ++ ([sep.getLast hsep] ++ (h.drop i).drop sep.length)) =
        h := by
      rw [← List.append_assoc sep.dropLast, List.dropLast_concat_getLast hsep,
        ← husplit, hv]
    exact ⟨v, [sep.getLast hsep] ++ (h.drop i).drop sep.length,
      by simpa [List.append_assoc] using heq⟩
  · push_neg at hcase
    have hune : h.drop i ≠ [] := by
      have : 0 < (h.drop i).length := by omega
      exact List.ne_nil_of_length_pos this
    have hsp : h.drop i = sep.take (h.drop i).length := by
      have h2 : (h.drop i ++ (sep ++ tail)).take (h.drop i).length = h.drop i :=
        List.take_left ..
      rw [← hw, List.take_append_of_le_length (le_of_lt hcase)] at h2
      exact h2.symm
    have hdropPre : sep.drop (h.drop i).length ++ w = sep ++ tail := by
      have h3 := congrArg (List.drop (h.drop i).length) hw
      rw [List.drop_append_of_le_length (le_of_lt hcase), List.drop_left] at h3
      exact h3
    have hborder_eq : sep.drop (h.drop i).length =
        sep.take (sep.length - (h.drop i).length) := by
      have h4 : (sep ++ tail).take (sep.length - (h.drop i).length) =
          sep.take (sep.length - (h.drop i).length) :=
        List.take_append_of_le_length (by omega)
      rw [← hdropPre, List.take_left' (by rw [List.length_drop])] at h4
      exact h4
    by_cases hd1 : (h.drop i).length + 1 = sep.length
    · have hud : h.drop i = sep.dropLast := by
        rw [hsp, List.dropLast_eq_take]
        congr 1
        omega
      apply hguard
      obtain ⟨v, hv⟩ := husuf
      exact ⟨v, [], by rw [List.append_nil, ← hud]; exact hv⟩
    · exact hborder (h.drop i).length hcase (by omega) hd1 hborder_eq

theorem splitFirst_block {sep : List Char} (hsep : sep ≠ [])
    (hborder : ∀ d, d < sep.length → 0 < d → d + 1 ≠ sep.length →
      sep.drop d ≠ sep.take (sep.length - d))
    {h : List Char} (hguard : ¬ sep.dropLast <:+: h) (tail : List Char) :
    splitFirst sep (h ++ sep ++ tail) = some (h, tail) :=
  splitFirst_of_no_occ hsep h tail (no_occ hsep hborder hguard tail)

theorem infix_append_cases {u x y : List Char} (hu : u <:+: x ++ y) :
    u <:+: x ∨ u <:+: y ∨
      ∃ u1 u2, u = u1 ++ u2 ∧ u1 ≠ [] ∧ u2 ≠ [] ∧ u1 <:+ x ∧ u2 <+: y := by
  obtain ⟨s, t, hst⟩ := hu
  rcases le_or_lt (s.length + u.length) x.length with h1 | h1
  · left
    have h2 : x ++ y = (s ++ u) ++ t := by rw [← hst]
    have h3 : x.take (s ++ u).length = s ++ u := by
      have hx1 : (x ++ y).take (s ++ u).length = x.take (s ++ u).length :=
        List.take_append_of_le_length (by simp only [List.length_append]; omega)
      rw [h2, List.take_left] at hx1
      exact hx1.symm
    refine ⟨s, x.drop (s ++ u).length, ?_⟩
    have h4 := List.take_append_drop (s ++ u).length x
    rw [h3] at h4
    simpa [List.append_assoc] using h4
  · rcases le_or_lt x.length s.length with h2 | h2
    · right; left
      have h3 := congrArg (List.drop x.length) hst
      rw [List.drop_left, List.append_assoc, List.drop_append_of_le_length h2] at h3
      exact ⟨s.drop x.length, t, by simpa [List.append_assoc] using h3⟩
    · right; right
      refine ⟨u.take (x.length - s.length), u.drop (x.length - s.length),
        (List.take_append_drop ..).symm, ?_, ?_, ?_, ?_⟩
      · have hl : (u.take (x.length - s.length)).length = x.length - s.length := by
          rw [List.length_take]; omega
        exact List.ne_nil_of_length_pos (by omega)
      · have hl : (u.drop (x.length - s.length)).length =
            u.length - (x.length - s.length) := List.length_drop ..
        exact List.ne_nil_of_length_pos (by omega)
      · have hxeq : x = s ++ u.take (x.length - s.length) := by
          have h3 : (x ++ y).take x.length = x := List.take_left ..
          rw [← hst, List.append_assoc, List.take_append_eq_append_take,
            List.take_of_length_le (le_of_lt h2), List.take_append_eq_append_take] at h3
          have hz : x.length - s.length - u.length = 0 := by omega
          rw [hz] at h3
          simp at h3
          exact h3.symm
        exact ⟨s, hxeq.symm⟩
      · have hyeq : y = u.drop (x.length - s.length) ++ t := by
          have h3 := congrArg (List.drop x.length) hst
          rw [List.drop_left, List.append_assoc, List.drop_append_eq_append_drop,
            List.drop_eq_nil_of_le (le_of_lt h2), List.drop_append_eq_append_drop] at h3
          have hz : x.length - s.length - u.length = 0 := by omega
          rw [hz] at h3
          simp at h3
          exact h3.symm
        exact ⟨t, hyeq.symm⟩

theorem infix_cons_of_not_head {c : Char} {u y : List Char} (hne : u ≠ []) (hnc : c ∉ u)
    (hin : u <:+: (c :: y)) : u <:+: y := by
  obtain ⟨s, t, hst⟩ := hin
  cases s with
  | nil =>
    cases u with
    | nil => exact absurd rfl hne
    | cons a u' =>
      simp only [List.nil_append, List.cons_append, List.cons.injEq] at hst
      exact absurd (hst.1 ▸ List.mem_cons_self ..) hnc
  | cons b s' =>
    simp only [List.cons_append, List.cons.injEq] at hst
    exact ⟨s', t, hst.2⟩

theorem infix_append_nl_right {u x y' : List Char} (hnc : '\n' ∉ u) (_hne : u ≠ [])
    (hin : u <:+: x ++ ('\n' :: y')) : u <:+: x ∨ u <:+: ('\n' :: y') := by
  rcases infix_append_cases hin with h | h | ⟨u1, u2, hu, -, hu2ne, -, hu2pre⟩
  · exact Or.inl h
  · exact Or.inr h
  · exfalso
    cases u2 with
    | nil => exact hu2ne rfl
    | cons a u2' =>
      obtain ⟨t2, ht2⟩ := hu2pre
      simp only [List.cons_append, List.cons.injEq] at ht2
      apply hnc
      rw [hu, ht2.1]
      exact List.mem_append.mpr (Or.inr (List.mem_cons_self ..))

theorem infix_append_nl_left {u x y : List Char} (hnc : '\n' ∉ u) (_hne : u ≠ [])
    (hx : x ≠ []) (hxl : x.getLast hx = '\n') (hin : u <:+: x ++ y) :
    u <:+: x ∨ u <:+: y := by
  rcases infix_append_cases hin with h | h | ⟨u1, u2, hu, hu1ne, -, hu1suf, -⟩
  · exact Or.inl h
  · exact Or.inr h
  · exfalso
    apply hnc
    obtain ⟨s, hs⟩ := hu1suf
    subst hs
    have hlast : u1.getLast hu1ne = '\n' := by
      rw [← hxl]
      exact (List.getLast_append' s u1 hu1ne).symm
    rw [hu]
    exact List.mem_append.mpr (Or.inl (by rw [← hlast]; exact List.getLast_mem hu1ne))

theorem docGuard_not_infix_inner {r : SearchResult} (hOk : OkResult r) :
    ¬ docClose.dropLast <:+: innerData r := by
  intro hin
  have hdc : ("</document>").data <:+: docClose.dropLast := by decide
  have h1 : ("</document>").data <:+: innerData r := hdc.trans hin
  have hnc : '\n' ∉ ("</document>").data := by decide
  have hne : ("</document>").data ≠ [] := by decide
  obtain ⟨-, -, hOk3, hOk4, hOk5⟩ := hOk
  rw [innerData, List.append_assoc] at h1
  have hTcons : sepText = '\n' :: ("\nText:\n").data := by decide
  rw [hTcons, List.cons_append] at h1
  rcases infix_append_nl_right hnc hne h1 with h1a | h1b
  · exact hOk3 h1a
  · have h2 := infix_cons_of_not_head hne hnc h1b
    have hx : ("\nText:\n").data ≠ [] := by decide
    have hxl : ("\nText:\n").data.getLast hx = '\n' := rfl
    rcases infix_append_nl_left hnc hne hx hxl h2 with h2a | h2b
    · exact absurd h2a (by decide)
    · rw [List.append_assoc] at h2b
      have hScons : sepSummary = '\n' :: ("\nSummary:\n").data := by decide
      rw [hScons, List.cons_append] at h2b
      rcases infix_append_nl_right hnc hne h2b with h3a | h3b
      · exact hOk4 h3a
      · have h4 := infix_cons_of_not_head hne hnc h3b
        have hy : ("\nSummary:\n").data ≠ [] := by decide
        have hyl : ("\nSummary:\n").data.getLast hy = '\n' := rfl
        rcases infix_append_nl_left hnc hne hy hyl h4 with h4a | h4b
        · exact absurd h4a (by decide)
        · exact hOk5 h4b

theorem parseBlock_eq (r : SearchResult) (hOk : OkResult r) :
    parseBlock (innerData r) = some (tripleOf r) := by
  obtain ⟨hOk1, hOk2, -, -, -⟩ := hOk
  unfold parseBlock innerData
  rw [splitFirst_block (by decide) (by decide) hOk1
    (r.content.data ++ sepSummary ++ r.summary.data)]
  dsimp only
  rw [splitFirst_block (by decide) (by decide) hOk2 r.summary.data]
  rfl

theorem parseBlocksFuel_flatten :
    ∀ (l : List SearchResult) (fuel : ℕ), (∀ r ∈ l, OkResult r) → l.length ≤ fuel →
      parseBlocksFuel fuel ((l.map blockChars).flatten) = some (l.map tripleOf) := by
  intro l
  induction l with
  | nil =>
    intro fuel _ _
    rw [parseBlocksFuel.eq_def]
    simp
  | cons r l ih =>
    intro fuel hOk hfuel
    cases fuel with
    | zero => exact absurd hfuel (by simp)
    | succ f =>
      have hOkr : OkResult r := hOk r (List.mem_cons_self ..)
      rw [parseBlocksFuel.eq_def]
      simp only [List.map_cons, List.flatten_cons]
      have hnil : blockChars r ++ (l.map blockChars).flatten ≠ [] := by
        apply List.append_ne_nil_of_left_ne_nil
        unfold blockChars
        exact List.append_ne_nil_of_left_ne_nil
          (List.append_ne_nil_of_left_ne_nil (by decide) _) _
      rw [if_neg hnil]
      have hshape : blockChars r ++ (l.map blockChars).flatten =
          docOpen ++ ((innerData r ++ docClose) ++ (l.map blockChars).flatten) := by
        simp [blockChars, List.append_assoc]
      rw [hshape]
      rw [if_pos (by simp)]
      rw [List.drop_left]
      rw [splitFirst_block (by decide) (by decide) (docGuard_not_infix_inner hOkr) _]
      dsimp only
      rw [parseBlock_eq r hOkr]
      rw [ih f (fun x hx => hOk x (List.mem_cons_of_mem _ hx))
        (by simp only [List.length_cons] at hfuel; omega)]

theorem assembleContext_foldl :
    ∀ (l : List SearchResult) (acc : String),
      (l.foldl
          (fun context r =>
            context ++ "\n<document>\n" ++ (r.section_header ++ "\n\n") ++
              ("Text:\n" ++ r.content ++ "\n\n") ++
              ("Summary:\n" ++ r.summary ++ "\n") ++ "</document>\n")
          acc).data =
        acc.data ++ (l.map fun r => (contextBlock r).data).flatten := by
  intro l
  induction l with
  | nil => intro acc; simp
  | cons r l ih =>
    intro acc
    rw [List.foldl_cons, ih]
    simp [contextBlock, List.append_assoc]

theorem contextBlock_data (r : SearchResult) : (contextBlock r).data = blockChars r := by
  simp [contextBlock, blockChars, innerData, sepText, sepSummary, docOpen, docClose,
    List.append_assoc]

theorem length_le_flatten_blocks (l : List SearchResult) :
    l.length ≤ ((l.map blockChars).flatten).length := by
  induction l with
  | nil => simp
  | cons r l ih =>
    simp only [List.map_cons, List.flatten_cons, List.length_append, List.length_cons]
    have h1 : 12 ≤ (blockChars r).length := by
      have h2 : (blockChars r).length =
          docOpen.length + ((innerData r).length + docClose.length) := by
        simp [blockChars]
      have h3 : docOpen.length = 12 := by decide
      omega
    omega

/-- Claim C4 (amended): the assembled `context_text` is exactly the
concatenation, one block per result in order with no extra separator, of
the spec's `\n<document>\n{header}\n\nText:\n{content}\n\nSummary:\n
{summary}\n</document>\n` template; and parsing it back through the
fixed delimiter format recovers every result's
`(section_header, content, summary)` triple in order, provided the
fields are delimiter-free (header without `"\n\nText:"`, content without
`"\n\nSummary:"`, no field containing `"</document>"`) — the proviso the
forgery counterexample forces. -/
theorem C4_context_format_and_roundtrip :
    (∀ l : List SearchResult,
        (assembleContext l).data = (l.map fun r => (contextBlock r).data).flatten) ∧
      ∀ l : List SearchResult, (∀ r ∈ l, OkResult r) →
        parseContext (assembleContext l) = some (l.map tripleOf) := by
  have hdata : ∀ l : List SearchResult,
      (assembleContext l).data = (l.map fun r => (contextBlock r).data).flatten := by
    intro l
    unfold assembleContext
    rw [assembleContext_foldl]
    simp
  refine ⟨hdata, ?_⟩
  intro l hOk
  have hbc : (l.map fun r => (contextBlock r).data) = l.map blockChars :=
    List.map_congr_left fun r _ => contextBlock_data r
  unfold parseContext
  rw [hdata l, hbc]
  exact parseBlocksFuel_flatten l _ hOk (length_le_flatten_blocks l)

/-- Witness for the amended C4: one delimiter-free result round-trips. -/
theorem C4_context_format_and_roundtrip_witness :
    (∀ r ∈ [candA], OkResult r) ∧
      parseContext (assembleContext [candA]) = some ([candA].map tripleOf) :=
  ⟨by decide, C4_context_format_and_roundtrip.2 [candA] (by decide)⟩

/-- Claim C4, counterexample to the round-trip half: two results that
differ in content and summary assemble to byte-identical context text,
so no parser can recover the original `(header, content, summary)`
triples for every result list. -/
theorem C4_counterexample :
    assembleContext [forgeR1] = assembleContext [forgeR2] ∧
      forgeR1.content ≠ forgeR2.content :=
  ⟨rfl, by decide⟩

end CompTIA
